import Mathlib

/-!
A shallow embedding of the HTML table extraction module
(`agatexml/table_html.py`): the colspan/rowspan span-expansion engine
(`expand_colspan_rowspan`), span-attribute parsing (`int(attr or 1)`),
whitespace normalization (`_remove_whitespace`), row classification
(`row_is_all_th` and the implicit-header while loop) and the relevant
steps of the `from_html` assembly, together with proofs of the
specification claims.
-/

namespace AgateXml

/-! ## Whitespace normalization (`_remove_whitespace`, lines 327-344)

`_RE_WHITESPACE = re.compile(r"[\r\n]+|\s{2,}")` and
`_remove_whitespace(s) = regex.sub(" ", s.strip())`.  We model Python's
`\s` over the ASCII whitespace characters (space, tab, newline, carriage
return, vertical tab, form feed).  `re.sub` scans left to right; at each
position it first tries the alternative `[\r\n]+` (a greedy run of CR/LF
only), then `\s{2,}` (a greedy run of at least two whitespace characters
of any kind); a match is replaced by a single space. -/

/-- ASCII version of Python's `\s` character class (also the default
`str.strip` set). -/
def isPySpace (c : Char) : Bool :=
  c = ' ' || c = '\t' || c = '\n' || c = '\r' || c = '\x0b' || c = '\x0c'

/-- Is the character matched by `[\r\n]`? -/
def isRN (c : Char) : Bool :=
  c = '\r' || c = '\n'

/-- `str.strip()`: drop leading and trailing whitespace. -/
def pyStrip (cs : List Char) : List Char :=
  ((cs.dropWhile isPySpace).reverse.dropWhile isPySpace).reverse

/-- Fuel-indexed scan for `re.sub(r"[\r\n]+|\s{2,}", " ", ·)`.  Every
step consumes at least one character, so fuel equal to the length of the
input (as used in `_remove_whitespace`) never runs out; the fuel-zero
branch is unreachable from those call sites. -/
def pySubFuel : Nat → List Char → List Char
  | 0, cs => cs
  | fuel + 1, cs =>
    match cs with
    | [] => []
    | c :: rest =>
      if isRN c then
        ' ' :: pySubFuel fuel (rest.dropWhile isRN)
      else if isPySpace c && (match rest with | d :: _ => isPySpace d | [] => false) then
        ' ' :: pySubFuel fuel (rest.dropWhile isPySpace)
      else
        c :: pySubFuel fuel rest

/-- `_remove_whitespace(s) = _RE_WHITESPACE.sub(" ", s.strip())`. -/
def _remove_whitespace (s : String) : String :=
  String.mk (pySubFuel (pyStrip s.data).length (pyStrip s.data))

/-! ## Span-attribute parsing

Line 270-271 of the source:
`rowspan = int(attr_getter(td, "rowspan") or 1)` and the same for
`colspan`.  `attr_getter` returns the raw attribute value (`None` when
absent).  `x or 1` yields `1` exactly when the attribute is absent or
the empty string; otherwise `int` parses the string (stripping
whitespace, then an optional sign and a nonempty digit run) and raises
`ValueError` on anything else.  A failed parse is modelled as `none`. -/

/-- Accumulate a decimal digit run; `none` on a non-digit. -/
def digitsToNat : List Char → Nat → Option Nat
  | [], acc => some acc
  | c :: rest, acc =>
    if c.isDigit then digitsToNat rest (acc * 10 + (c.toNat - '0'.toNat))
    else none

/-- A nonempty all-digit run, else `none`. -/
def parseDigits : List Char → Option Nat
  | [] => none
  | cs => digitsToNat cs 0

/-- Python `int(s)` on a string: strip whitespace, optional sign, digit
run; `none` models the `ValueError` raised otherwise.  (CPython also
accepts underscore digit separators and non-ASCII digits, which do not
occur in the claims and are not modelled.) -/
def pyInt (s : String) : Option Int :=
  match pyStrip s.data with
  | '-' :: rest => (parseDigits rest).map fun n => -(n : Int)
  | '+' :: rest => (parseDigits rest).map fun n => (n : Int)
  | cs => (parseDigits cs).map fun n => (n : Int)

/-- `int(attr or 1)`: `1` when the attribute is absent (`None`) or the
empty string (both falsy in Python); otherwise `int` applied to the
attribute string. -/
def pySpan : Option String → Option Int
  | none => some 1
  | some s => if s = "" then some 1 else pyInt s

/-! ## DOM model

The claims never inspect the HTML parser itself (BeautifulSoup), so a
`td`/`th` node is modelled by the four facts the module reads from it:
its tag name (`equals_tag`), its text (`text_getter`), and its two span
attributes (`attr_getter`).  A `tr` node is its list of direct cell
children (what `parse_td` returns), and a `table` node carries the row
lists produced by the three `parse_*_tr` selections (which are plain
CSS-selector lookups delegated to the external parser). -/

/-- A `<td>`/`<th>` DOM node as seen by the module. -/
structure TdNode where
  name : String
  text : String
  rowspanAttr : Option String
  colspanAttr : Option String
  deriving DecidableEq, Repr

/-- A `<tr>` DOM node: its direct cell children. -/
structure TrNode where
  cells : List TdNode
  deriving DecidableEq, Repr

/-- A `<table>` DOM node, carrying the row selections that
`parse_thead_tr` (`select("thead tr")`), `parse_tbody_tr`
(`select("tbody tr")` plus `find_all("tr", recursive=False)`) and
`parse_tfoot_tr` (`select("tfoot tr")`) produce. -/
structure TableNode where
  theadTr : List TrNode
  tbodyTr : List TrNode
  rootTr : List TrNode
  tfootTr : List TrNode
  deriving DecidableEq, Repr

/-- `parse_td(row_html) = row_html.find_all(("td", "th"), recursive=False)`. -/
def parse_td (tr : TrNode) : List TdNode :=
  tr.cells

/-- `parse_thead_tr(table_html) = table_html.select("thead tr")`. -/
def parse_thead_tr (t : TableNode) : List TrNode :=
  t.theadTr

/-- `parse_tbody_tr`: rows under a `tbody` concatenated with the
table's direct `tr` children. -/
def parse_tbody_tr (t : TableNode) : List TrNode :=
  t.tbodyTr ++ t.rootTr

/-- `parse_tfoot_tr(table_html) = table_html.select("tfoot tr")`. -/
def parse_tfoot_tr (t : TableNode) : List TrNode :=
  t.tfootTr

/-- `equals_tag(obj, tag) = (obj.name == tag)`. -/
def equals_tag (td : TdNode) (tag : String) : Bool :=
  td.name == tag

/-- `row_is_all_th(row_html) = all(equals_tag(t, "th") for t in parse_td(row_html))`. -/
def row_is_all_th (tr : TrNode) : Bool :=
  (parse_td tr).all fun t => equals_tag t "th"

/-! ## The span-expansion engine (`expand_colspan_rowspan`, lines 232-300)

The engine keeps `remainder`, a queue of `(index, text, nrows)` pending
spans from earlier rows.  `Cell` is the view of a `<td>` after line
269-271: normalized text plus parsed `rowspan`/`colspan`.  The engine is
decomposed into one function per loop of the source; each is a direct
transliteration of the corresponding mutable loop, threading
`(remainder, texts, next_remainder, index)` explicitly. -/

/-- The engine's view of one cell: normalized text and parsed spans. -/
structure Cell where
  text : String
  rowspan : Int
  colspan : Int
  deriving DecidableEq, Repr

/-- A pending span `(index, text, nrows)` — one `remainder` entry. -/
abbrev Pending := Nat × String × Int

/-- The while loop at lines 261-266: pop pending entries whose recorded
column index is `<= index`, appending their text to `texts` and
re-queueing each survivor (`nrows > 1`) with `nrows` decremented. -/
def drainPending : List Pending → List String → List Pending → Nat →
    List Pending × List String × List Pending × Nat
  | [], texts, nextRem, index => ([], texts, nextRem, index)
  | p :: rest, texts, nextRem, index =>
    if p.1 ≤ index then
      drainPending rest (texts ++ [p.2.1])
        (if 1 < p.2.2 then nextRem ++ [(p.1, p.2.1, p.2.2 - 1)] else nextRem)
        (index + 1)
    else (p :: rest, texts, nextRem, index)

/-- The `for _ in range(colspan)` loop at lines 273-277: append the
cell's text `colspan` times (`count = colspan.toNat`, so a nonpositive
colspan appends nothing, exactly like `range`), queueing
`(index, text, rowspan - 1)` for each occupied position when
`rowspan > 1`. -/
def placeCell (text : String) (rowspan : Int) :
    Nat → List String → List Pending → Nat →
    List String × List Pending × Nat
  | 0, texts, nextRem, index => (texts, nextRem, index)
  | n + 1, texts, nextRem, index =>
    placeCell text rowspan n (texts ++ [text])
      (if 1 < rowspan then nextRem ++ [(index, text, rowspan - 1)] else nextRem)
      (index + 1)

/-- The flush loop at lines 280-283 (also the body of the trailing-row
loop at lines 293-296): append every remaining pending text, re-queueing
survivors with `nrows` decremented. -/
def flushRemainder : List Pending → List String → List Pending →
    List String × List Pending
  | [], texts, nextRem => (texts, nextRem)
  | p :: rest, texts, nextRem =>
    flushRemainder rest (texts ++ [p.2.1])
      (if 1 < p.2.2 then nextRem ++ [(p.1, p.2.1, p.2.2 - 1)] else nextRem)

/-- The body of `for td in tds` (lines 258-277): drain due pending
entries, then place the cell `colspan` times. -/
def cellStep (st : List Pending × List String × List Pending × Nat)
    (td : Cell) : List Pending × List String × List Pending × Nat :=
  let d := drainPending st.1 st.2.1 st.2.2.1 st.2.2.2
  let p := placeCell td.text td.rowspan td.colspan.toNat d.2.1 d.2.2.1 d.2.2.2
  (d.1, p.1, p.2.1, p.2.2)

/-- One iteration of `for tr in rows` (lines 252-286): run the cell loop
from `index = 0` with empty `texts`/`next_remainder`, then flush what is
left of the incoming queue.  Returns this row's texts and the queue for
the next row. -/
def expandRow (cells : List Cell) (remainder : List Pending) :
    List String × List Pending :=
  let st := cells.foldl cellStep (remainder, [], [], 0)
  flushRemainder st.1 st.2.1 st.2.2.1

/-- Termination measure for the trailing-row loop: each pending entry
contributes its (clamped) remaining row count. -/
def pendingMeasure : List Pending → Nat
  | [] => 0
  | p :: rest => max p.2.2.toNat 1 + pendingMeasure rest

/-- The `while remainder` loop at lines 290-298, fuel-indexed.  One
iteration flushes the whole queue into a synthesized row.  Each
iteration strictly decreases `pendingMeasure` (proved below), so fuel
equal to the initial measure — as used in `trailingRows` — never runs
out; the fuel-zero branch is only ever reached on the empty queue. -/
def trailingRowsFuel : Nat → List Pending → List (List String)
  | 0, _ => []
  | fuel + 1, rem =>
    if rem.isEmpty then []
    else
      (flushRemainder rem [] []).1 ::
        trailingRowsFuel fuel (flushRemainder rem [] []).2

/-- The trailing rows synthesized after the input rows are exhausted. -/
def trailingRows (rem : List Pending) : List (List String) :=
  trailingRowsFuel (pendingMeasure rem) rem

/-- The full loop structure of `expand_colspan_rowspan` on already
parsed cells: each input row contributes one output row, and the
trailing-row loop runs on the final queue. -/
def expandRows : List (List Cell) → List Pending → List (List String)
  | [], remainder => trailingRows remainder
  | tr :: rest, remainder =>
    (expandRow tr remainder).1 :: expandRows rest (expandRow tr remainder).2

/-- `expand_colspan_rowspan` on parsed cells, starting from an empty
pending queue (line 250: `remainder = []`). -/
def expandCells (rows : List (List Cell)) : List (List String) :=
  expandRows rows []

/-- The per-input-row outputs and the queue left after the last input
row, before the trailing-row loop runs.  Used to state claims about the
queue "at the start of a row" and about the trailing phase. -/
def rowOutputs : List (List Cell) → List Pending →
    List (List String) × List Pending
  | [], rem => ([], rem)
  | tr :: rest, rem =>
    ((expandRow tr rem).1 :: (rowOutputs rest (expandRow tr rem).2).1,
     (rowOutputs rest (expandRow tr rem).2).2)

/-- One trailing-loop step's effect on the queue: survivors
(`nrows > 1`) kept in order with `nrows` decremented (lines 293-296). -/
def decPending (rem : List Pending) : List Pending :=
  (rem.filter fun p => decide (1 < p.2.2)).map fun p => (p.1, p.2.1, p.2.2 - 1)

/-- Lines 269-271 for one cell: normalized text and the two parsed
spans; `none` models the `ValueError` escaping from `int`. -/
def tdToCell (td : TdNode) : Option Cell :=
  match pySpan td.rowspanAttr, pySpan td.colspanAttr with
  | some r, some c => some ⟨_remove_whitespace td.text, r, c⟩
  | _, _ => none

/-- Parse every cell of one row, failing if any `int` raises. -/
def cellsOfRow : List TdNode → Option (List Cell)
  | [] => some []
  | td :: rest =>
    match tdToCell td, cellsOfRow rest with
    | some c, some cs => some (c :: cs)
    | _, _ => none

/-- Parse every row (`parse_td` on each `tr`, then per-cell parsing). -/
def rowsOfTrs : List TrNode → Option (List (List Cell))
  | [] => some []
  | tr :: rest =>
    match cellsOfRow (parse_td tr), rowsOfTrs rest with
    | some cs, some rest2 => some (cs :: rest2)
    | _, _ => none

/-- `expand_colspan_rowspan(rows)`.  The source interleaves attribute
parsing with expansion; since a `ValueError` aborts the whole call, the
returned value is the same as parsing every cell first (`rowsOfTrs`) and
then running the pure engine (`expandCells`), which is how it is staged
here. -/
def expand_colspan_rowspan (rows : List TrNode) : Option (List (List String)) :=
  (rowsOfTrs rows).map expandCells

/-! ## `from_html` (lines 40-117)

Only the parts the claims exercise are modelled: the dispatch on the
table identifier (string / int / other, lines 83-90), Python list
indexing for `find_all('table')[i]`, the row-limit slice
`body_rows[0:row_limit]` (lines 94-95), the implicit-header while loop
(lines 98-103), the three expansions, and `column_names = head[0]`
(line 110).  File I/O and the BeautifulSoup parse are external. -/

/-- Python list indexing `l[n]`, including negative indices; `none`
models `IndexError`. -/
def pyIndex {α : Type} (l : List α) (n : Int) : Option α :=
  if 0 ≤ n then l.get? n.toNat
  else if (-n).toNat ≤ l.length then l.get? (l.length - (-n).toNat)
  else none

/-- The runtime type of one `table_identifier` element. -/
inductive TableIdentifier where
  | byName : String → TableIdentifier
  | byIndex : Int → TableIdentifier
  | other : TableIdentifier
  deriving DecidableEq, Repr

/-- The exceptions `from_html` can raise in the modelled fragment. -/
inductive FromHtmlError where
  | notImplementedYet
  | couldNotInterpret
  | indexError
  | valueError
  | nameError
  deriving DecidableEq, Repr

/-- The constructed `agate.Table` as far as the claims observe it:
the column names passed in and the body rows.  (Downstream validation
by the `agate` constructor is out of scope.) -/
structure AgateTable where
  column_names : List String
  rows : List (List String)
  deriving DecidableEq, Repr

/-- The `while body_rows and row_is_all_th(body_rows[0])` loop at lines
102-103: move leading all-`th` body rows onto the end of the head
list. -/
def moveHeaderRows : List TrNode → List TrNode → List TrNode × List TrNode
  | headAcc, [] => (headAcc, [])
  | headAcc, r :: rest =>
    if row_is_all_th r then moveHeaderRows (headAcc ++ [r]) rest
    else (headAcc, r :: rest)

/-- Lines 98-103: the implicit-header fallback runs only when the head
selection is empty. -/
def classifyRows (headRows bodyRows : List TrNode) :
    List TrNode × List TrNode :=
  if headRows.isEmpty then moveHeaderRows headRows bodyRows
  else (headRows, bodyRows)

/-- Lines 94-95: `body_rows = body_rows[0:row_limit]` when a limit is
given (`l[0:n]` for a nonnegative `n` is `take n`). -/
def limitedBodyRows (t : TableNode) (rowLimit : Option Nat) : List TrNode :=
  match rowLimit with
  | none => parse_tbody_tr t
  | some n => (parse_tbody_tr t).take n

/-- Lines 92-112 for one table element: classify rows, expand the three
groups, derive column names (`head[0]`, an `IndexError` on an empty
head, or the caller's `column_names` when `header` is false, a
`NameError` when absent), and build the table from the body rows. -/
def processTable (t : TableNode) (header : Bool)
    (columnNames : Option (List String)) (rowLimit : Option Nat) :
    Except FromHtmlError AgateTable :=
  let groups := classifyRows (parse_thead_tr t) (limitedBodyRows t rowLimit)
  match expand_colspan_rowspan groups.1, expand_colspan_rowspan groups.2,
      expand_colspan_rowspan (parse_tfoot_tr t) with
  | some head, some body, some _foot =>
    match (if header then head.head? else columnNames) with
    | some cn => Except.ok ⟨cn, body⟩
    | none =>
      Except.error (if header then FromHtmlError.indexError else FromHtmlError.nameError)
  | _, _, _ => Except.error FromHtmlError.valueError

/-- `from_html` for a single table identifier (lines 83-112): a string
identifier raises `Exception("Not implemented yet.")` before anything
else is attempted; an integer indexes `find_all('table')`; any other
type raises the "could not interpret" exception. -/
def from_html_single (doc : List TableNode) (ti : TableIdentifier)
    (header : Bool) (columnNames : Option (List String))
    (rowLimit : Option Nat) : Except FromHtmlError AgateTable :=
  match ti with
  | TableIdentifier.byName _ => Except.error FromHtmlError.notImplementedYet
  | TableIdentifier.byIndex n =>
    match pyIndex doc n with
    | none => Except.error FromHtmlError.indexError
    | some t => processTable t header columnNames rowLimit
  | TableIdentifier.other => Except.error FromHtmlError.couldNotInterpret

/-! ## Basic lemmas about the engine's loops -/

/-- The flush loop, characterized declaratively: it appends every
pending text in queue order and re-queues exactly the survivors with
their row count decremented. -/
lemma flushRemainder_eq (rem : List Pending) : ∀ texts nextRem,
    flushRemainder rem texts nextRem =
      (texts ++ rem.map fun p => p.2.1, nextRem ++ decPending rem) := by
  induction rem with
  | nil => intro texts nextRem; simp [flushRemainder, decPending]
  | cons p rest ih =>
    intro texts nextRem
    by_cases h : 1 < p.2.2
    · simp [flushRemainder, h, ih, decPending, List.filter_cons]
    · simp [flushRemainder, h, ih, decPending, List.filter_cons]

/-- One flush strictly shrinks the queue measure by at least its length. -/
lemma decPending_measure (rem : List Pending) :
    pendingMeasure (decPending rem) + rem.length ≤ pendingMeasure rem := by
  induction rem with
  | nil => simp [decPending, pendingMeasure]
  | cons p rest ih =>
    by_cases h : 1 < p.2.2
    · simp [decPending, List.filter_cons, h, pendingMeasure] at ih ⊢
      omega
    · simp [decPending, List.filter_cons, h, pendingMeasure] at ih ⊢
      omega

lemma pendingMeasure_pos (p : Pending) (rest : List Pending) :
    1 ≤ pendingMeasure (p :: rest) := by
  have h := Nat.le_max_right p.2.2.toNat 1
  simp [pendingMeasure]
  omega

lemma pendingMeasure_eq_zero {rem : List Pending}
    (h : pendingMeasure rem = 0) : rem = [] := by
  cases rem with
  | nil => rfl
  | cons p rest =>
    have := pendingMeasure_pos p rest
    omega

lemma trailingRowsFuel_nil (fuel : Nat) : trailingRowsFuel fuel [] = [] := by
  cases fuel <;> simp [trailingRowsFuel]

/-- The fuel parameter is irrelevant above the queue measure. -/
lemma trailingRowsFuel_congr : ∀ f1 f2 : Nat, ∀ rem : List Pending,
    pendingMeasure rem ≤ f1 → pendingMeasure rem ≤ f2 →
    trailingRowsFuel f1 rem = trailingRowsFuel f2 rem := by
  intro f1
  induction f1 with
  | zero =>
    intro f2 rem h1 h2
    have : rem = [] := pendingMeasure_eq_zero (Nat.le_zero.mp h1)
    subst this
    simp [trailingRowsFuel_nil]
  | succ f ih =>
    intro f2 rem h1 h2
    cases rem with
    | nil => simp [trailingRowsFuel_nil]
    | cons p rest =>
      have hpos : 1 ≤ pendingMeasure (p :: rest) := pendingMeasure_pos p rest
      cases f2 with
      | zero => omega
      | succ f2' =>
        have hdec :
            pendingMeasure (flushRemainder (p :: rest) [] []).2 + (p :: rest).length ≤
              pendingMeasure (p :: rest) := by
          rw [flushRemainder_eq]
          simpa using decPending_measure (p :: rest)
        have hlen : 1 ≤ (p :: rest).length := by simp
        simp only [trailingRowsFuel, List.isEmpty_cons, Bool.false_eq_true,
          if_false]
        congr 1
        exact ih f2' _ (by omega) (by omega)

/-- Unfolding equation of the trailing-row loop: on a non-empty queue,
one synthesized row of all pending texts is emitted and the loop
continues on the decremented survivors. -/
lemma trailingRows_unfold (rem : List Pending) :
    trailingRows rem =
      if rem.isEmpty then []
      else (rem.map fun p => p.2.1) :: trailingRows (decPending rem) := by
  cases rem with
  | nil => simp [trailingRows, pendingMeasure, trailingRowsFuel]
  | cons p rest =>
    have hpos := pendingMeasure_pos p rest
    obtain ⟨k, hk⟩ : ∃ k, pendingMeasure (p :: rest) = k + 1 :=
      ⟨pendingMeasure (p :: rest) - 1, by omega⟩
    have hmeas := decPending_measure (p :: rest)
    have hlen : 1 ≤ (p :: rest).length := by simp
    rw [trailingRows, hk]
    simp only [trailingRowsFuel, List.isEmpty_cons, Bool.false_eq_true, if_false]
    rw [flushRemainder_eq]
    simp only [List.nil_append]
    congr 1
    rw [trailingRows]
    exact trailingRowsFuel_congr k _ _ (by omega) (le_refl _)

/-- The engine's output is the per-input-row outputs followed by the
trailing rows synthesized from the final queue. -/
lemma expandRows_split (rows : List (List Cell)) : ∀ rem,
    expandRows rows rem =
      (rowOutputs rows rem).1 ++ trailingRows (rowOutputs rows rem).2 := by
  induction rows with
  | nil => intro rem; simp [expandRows, rowOutputs]
  | cons r rest ih => intro rem; simp [expandRows, rowOutputs, ih]

/-- `placeCell` for a cell that queues nothing (`rowspan <= 1`). -/
lemma placeCell_nospan (t : String) (r : Int) (hr : ¬ 1 < r) (n : Nat) :
    ∀ texts nextRem index,
      placeCell t r n texts nextRem index =
        (texts ++ List.replicate n t, nextRem, index + n) := by
  induction n with
  | zero => intro texts nextRem index; simp [placeCell]
  | succ m ih =>
    intro texts nextRem index
    simp [placeCell, hr, ih, List.replicate_succ]
    omega

/-- `placeCell` for a spanning cell occupying one column. -/
lemma placeCell_span_one (t : String) (r : Int) (hr : 1 < r)
    (texts : List String) (nextRem : List Pending) (index : Nat) :
    placeCell t r 1 texts nextRem index =
      (texts ++ [t], nextRem ++ [(index, t, r - 1)], index + 1) := by
  simp [placeCell, hr]

/-- The cell loop over span-free cells: each cell contributes its text
once and touches neither queue. -/
lemma foldl_cellStep_ones (cells : List Cell)
    (h : ∀ c ∈ cells, c.rowspan = 1 ∧ c.colspan = 1) :
    ∀ texts nextRem index,
      cells.foldl cellStep ([], texts, nextRem, index) =
        ([], texts ++ cells.map (fun c => c.text), nextRem,
          index + cells.length) := by
  induction cells with
  | nil => intro texts nextRem index; simp
  | cons c rest ih =>
    intro texts nextRem index
    obtain ⟨hr, hc⟩ := h c (by simp)
    have h1 : ¬ (1 : Int) < 1 := by norm_num
    have hstep : cellStep ([], texts, nextRem, index) c =
        ([], texts ++ [c.text], nextRem, index + 1) := by
      simp [cellStep, drainPending, hr, hc, placeCell_nospan c.text 1 h1]
    rw [List.foldl_cons, hstep, ih (fun x hx => h x (by simp [hx]))]
    simp
    omega

/-- A row of span-free cells maps to its texts and leaves an empty
queue. -/
lemma expandRow_ones (cells : List Cell)
    (h : ∀ c ∈ cells, c.rowspan = 1 ∧ c.colspan = 1) :
    expandRow cells [] = (cells.map fun c => c.text, []) := by
  simp [expandRow, foldl_cellStep_ones cells h, flushRemainder]

/-- The engine on span-free rows is the identity on texts. -/
lemma expandRows_ones (rows : List (List Cell))
    (h : ∀ row ∈ rows, ∀ c ∈ row, c.rowspan = 1 ∧ c.colspan = 1) :
    expandRows rows [] = rows.map fun row => row.map fun c => c.text := by
  induction rows with
  | nil => simp [expandRows, trailingRows, pendingMeasure, trailingRowsFuel]
  | cons r rest ih =>
    have hr := fun c hc => h r (by simp) c hc
    have hrest := fun row hrow => h row (List.mem_cons_of_mem _ hrow)
    simp [expandRows, expandRow_ones r hr, ih hrest]

/-! ## Lemmas about attribute parsing -/

/-- A cell with neither span attribute parses to spans `(1, 1)`. -/
lemma tdToCell_noattrs (td : TdNode) (hr : td.rowspanAttr = none)
    (hc : td.colspanAttr = none) :
    tdToCell td = some ⟨_remove_whitespace td.text, 1, 1⟩ := by
  simp [tdToCell, hr, hc, pySpan]

lemma cellsOfRow_noattrs (tds : List TdNode)
    (h : ∀ td ∈ tds, td.rowspanAttr = none ∧ td.colspanAttr = none) :
    cellsOfRow tds =
      some (tds.map fun td => ⟨_remove_whitespace td.text, 1, 1⟩) := by
  induction tds with
  | nil => simp [cellsOfRow]
  | cons td rest ih =>
    obtain ⟨h1, h2⟩ := h td (by simp)
    simp [cellsOfRow, tdToCell_noattrs td h1 h2,
      ih (fun x hx => h x (List.mem_cons_of_mem _ hx))]

lemma rowsOfTrs_noattrs (rows : List TrNode)
    (h : ∀ tr ∈ rows, ∀ td ∈ tr.cells,
        td.rowspanAttr = none ∧ td.colspanAttr = none) :
    rowsOfTrs rows =
      some (rows.map fun tr =>
        tr.cells.map fun td =>
          (⟨_remove_whitespace td.text, 1, 1⟩ : Cell)) := by
  induction rows with
  | nil => simp [rowsOfTrs]
  | cons tr rest ih =>
    have h1 := fun td htd => h tr (by simp) td htd
    simp [rowsOfTrs, parse_td, cellsOfRow_noattrs tr.cells h1,
      ih (fun x hx => h x (List.mem_cons_of_mem _ hx))]

/-! ## Claim C1 -/

/-- C1: for every input row sequence in which every cell has rowspan 1
and colspan 1 (no span attributes), `expand_colspan_rowspan` returns
exactly one dense row per input row, each equal to that row's
normalized cell texts in source order. -/
theorem identity_expansion (rows : List TrNode)
    (h : ∀ tr ∈ rows, ∀ td ∈ tr.cells,
        td.rowspanAttr = none ∧ td.colspanAttr = none) :
    expand_colspan_rowspan rows =
      some (rows.map fun tr =>
        tr.cells.map fun td => _remove_whitespace td.text) := by
  rw [expand_colspan_rowspan, rowsOfTrs_noattrs rows h]
  simp only [Option.map_some']
  congr 1
  rw [expandCells, expandRows_ones]
  · simp [List.map_map]
  · intro row hrow c hc
    simp only [List.mem_map] at hrow
    obtain ⟨tr, htr, rfl⟩ := hrow
    simp only [List.mem_map] at hc
    obtain ⟨td, htd, rfl⟩ := hc
    exact ⟨rfl, rfl⟩

/-- Witness for C1 at a concrete one-row, one-cell table. -/
theorem identity_expansion_witness :
    expand_colspan_rowspan [⟨[⟨"td", "a", none, none⟩]⟩] = some [["a"]] := by
  rw [identity_expansion [⟨[⟨"td", "a", none, none⟩]⟩]
    (by intro tr htr td htd; simp at htr; subst htr; simp at htd; subst htd
        exact ⟨rfl, rfl⟩)]
  rfl

/-! ## Claim C4 -/

/-- C4: the engine is total on every finite row sequence (it is a Lean
function), its output is the per-input-row rows followed by the rows the
trailing loop synthesizes from the queue left after the last input row,
and each trailing row consists exactly of the pending texts in queue
order, with each entry's remaining row count decremented (survivors
only) for the next synthesized row, until the queue empties. -/
theorem trailing_rows_flush (rows : List (List Cell)) (rem : List Pending) :
    expandCells rows =
      (rowOutputs rows []).1 ++ trailingRows (rowOutputs rows []).2 ∧
    trailingRows rem =
      (if rem.isEmpty then []
       else (rem.map fun p => p.2.1) :: trailingRows (decPending rem)) :=
  ⟨expandRows_split rows [], trailingRows_unfold rem⟩

/-! ## Claim C7 -/

/-- The implicit-header while loop moves exactly the leading all-`th`
rows, in order, onto the end of the accumulated head list. -/
lemma moveHeaderRows_eq (body : List TrNode) : ∀ acc,
    moveHeaderRows acc body =
      (acc ++ body.takeWhile row_is_all_th, body.dropWhile row_is_all_th) := by
  induction body with
  | nil => intro acc; simp [moveHeaderRows]
  | cons r rest ih =>
    intro acc
    by_cases h : row_is_all_th r
    · simp [moveHeaderRows, h, ih, List.takeWhile_cons, List.dropWhile_cons]
    · simp [moveHeaderRows, h, List.takeWhile_cons, List.dropWhile_cons]

/-- C7: with no explicit head section, the successive leading all-`th`
body rows — and exactly those — are moved, in order, from the body group
to the head group; the loop stops at the first body row that is not
all-header (or when the body is exhausted), and the moved rows are
excluded from the body output. -/
theorem implicit_header_promotion (body : List TrNode) :
    classifyRows [] body =
      (body.takeWhile row_is_all_th, body.dropWhile row_is_all_th) := by
  simp [classifyRows, moveHeaderRows_eq]

/-! ## Claim C9 -/

/-- C9: a string table identifier makes `from_html` raise the
"Not implemented yet." exception immediately — no fallback, no
empty-table result. -/
theorem string_identifier_error (doc : List TableNode) (s : String)
    (header : Bool) (columnNames : Option (List String))
    (rowLimit : Option Nat) :
    from_html_single doc (TableIdentifier.byName s) header columnNames
        rowLimit =
      Except.error FromHtmlError.notImplementedYet := rfl

/-! ## Claim C10 -/

/-- C10: a body row with zero cells is vacuously all-`th` (`all` over an
empty cell list), so with no explicit head section the implicit-header
fallback moves it into the head group and keeps consuming the rows after
it. -/
theorem empty_row_all_th (rest : List TrNode) :
    row_is_all_th ⟨[]⟩ = true ∧
    classifyRows [] (⟨[]⟩ :: rest) =
      (⟨[]⟩ :: (classifyRows [] rest).1, (classifyRows [] rest).2) := by
  constructor
  · rfl
  · have h : row_is_all_th (⟨[]⟩ : TrNode) = true := rfl
    simp [classifyRows, moveHeaderRows_eq, List.takeWhile_cons,
      List.dropWhile_cons, h]

/-! ## Claim C2 -/

/-- A cell with attribute `rowspan="2"` and no colspan attribute parses
to spans `(2, 1)`. -/
lemma tdToCell_rowspan2 (td : TdNode) (hr : td.rowspanAttr = some "2")
    (hc : td.colspanAttr = none) :
    tdToCell td = some ⟨_remove_whitespace td.text, 2, 1⟩ := by
  have h2 : pySpan td.rowspanAttr = some 2 := by rw [hr]; rfl
  have h1 : pySpan td.colspanAttr = some 1 := by rw [hc]; rfl
  simp [tdToCell, h2, h1]

/-- Row 1 of the C2 scenario: the leading `(rowspan 2, colspan 1)` cell
contributes its text at index 0 and queues `(0, t, 1)`; the span-free
rest contributes its texts. -/
lemma expandRow_span_first (t : String) (cs : List Cell)
    (h : ∀ c ∈ cs, c.rowspan = 1 ∧ c.colspan = 1) :
    expandRow (⟨t, 2, 1⟩ :: cs) [] =
      (t :: cs.map fun c => c.text, [(0, t, 1)]) := by
  have h2 : (1 : Int) < 2 := by norm_num
  have hstep : cellStep ([], [], [], 0) ⟨t, 2, 1⟩ = ([], [t], [(0, t, 1)], 1) := by
    simp [cellStep, drainPending, placeCell_span_one t 2 h2]
  simp only [expandRow, List.foldl_cons, hstep,
    foldl_cellStep_ones cs h [t] [(0, t, 1)] 1]
  simp [flushRemainder]

/-- Row 2 of the C2 scenario: a queue holding `(0, t, 1)` is flushed at
position 0 (in front of the row's own cells, or at the row's end when
the row has no cells) and is not re-queued. -/
lemma expandRow_pending_front (t : String) (cs : List Cell)
    (h : ∀ c ∈ cs, c.rowspan = 1 ∧ c.colspan = 1) :
    expandRow cs [(0, t, 1)] = (t :: cs.map fun c => c.text, []) := by
  have h1 : ¬ (1 : Int) < 1 := by norm_num
  cases cs with
  | nil => simp [expandRow, flushRemainder]
  | cons d ds =>
    obtain ⟨hdr, hdc⟩ := h d (by simp)
    have hstep : cellStep ([(0, t, 1)], [], [], 0) d =
        ([], [t, d.text], [], 2) := by
      simp [cellStep, drainPending, hdr, hdc, placeCell_nospan d.text 1 h1]
    simp only [List.foldl_cons, expandRow, hstep,
      foldl_cellStep_ones ds (fun x hx => h x (List.mem_cons_of_mem _ hx))
        [t, d.text] [] 2]
    simp [flushRemainder]

/-- The engine on the two-row C2 scenario, at the cell level. -/
lemma expandCells_rowspan2 (t : String) (cs1 cs2 : List Cell)
    (h1 : ∀ c ∈ cs1, c.rowspan = 1 ∧ c.colspan = 1)
    (h2 : ∀ c ∈ cs2, c.rowspan = 1 ∧ c.colspan = 1) :
    expandCells [⟨t, 2, 1⟩ :: cs1, cs2] =
      [t :: cs1.map (fun c => c.text), t :: cs2.map fun c => c.text] := by
  simp [expandCells, expandRows, expandRow_span_first t cs1 h1,
    expandRow_pending_front t cs2 h2, trailingRows, pendingMeasure,
    trailingRowsFuel]

/-- C2: in a two-row input whose row 1 starts with a `rowspan="2"` cell
(all other spans 1), the second dense row is that cell's text at index
0 followed by row 2's own cell texts in source order (and row 1 is its
own texts; no trailing row is synthesized). -/
theorem rowspan_two_second_row (td0 : TdNode) (rest1 : List TdNode)
    (row2 : TrNode)
    (h0r : td0.rowspanAttr = some "2") (h0c : td0.colspanAttr = none)
    (h1 : ∀ td ∈ rest1, td.rowspanAttr = none ∧ td.colspanAttr = none)
    (h2 : ∀ td ∈ row2.cells, td.rowspanAttr = none ∧ td.colspanAttr = none) :
    expand_colspan_rowspan [⟨td0 :: rest1⟩, row2] =
      some [_remove_whitespace td0.text ::
              rest1.map (fun td => _remove_whitespace td.text),
            _remove_whitespace td0.text ::
              row2.cells.map fun td => _remove_whitespace td.text] := by
  have hrows : rowsOfTrs [⟨td0 :: rest1⟩, row2] = some
      [⟨_remove_whitespace td0.text, 2, 1⟩ ::
         rest1.map (fun td => (⟨_remove_whitespace td.text, 1, 1⟩ : Cell)),
       row2.cells.map fun td =>
         (⟨_remove_whitespace td.text, 1, 1⟩ : Cell)] := by
    simp [rowsOfTrs, parse_td, cellsOfRow, tdToCell_rowspan2 td0 h0r h0c,
      cellsOfRow_noattrs rest1 h1, cellsOfRow_noattrs row2.cells h2]
  rw [expand_colspan_rowspan, hrows, Option.map_some']
  congr 1
  rw [expandCells_rowspan2]
  · simp [List.map_map]
  · intro c hc
    simp only [List.mem_map] at hc
    obtain ⟨td, htd, rfl⟩ := hc
    exact ⟨rfl, rfl⟩
  · intro c hc
    simp only [List.mem_map] at hc
    obtain ⟨td, htd, rfl⟩ := hc
    exact ⟨rfl, rfl⟩

/-- Witness for C2 at a concrete two-row table. -/
theorem rowspan_two_second_row_witness :
    expand_colspan_rowspan
        [⟨[⟨"td", "a", some "2", none⟩]⟩, ⟨[⟨"td", "b", none, none⟩]⟩] =
      some [["a"], ["a", "b"]] := by
  rw [rowspan_two_second_row ⟨"td", "a", some "2", none⟩ []
    ⟨[⟨"td", "b", none, none⟩]⟩ rfl rfl (by simp)
    (by intro td htd; simp at htd; subst htd; exact ⟨rfl, rfl⟩)]
  rfl

/-! ## Claim C3 -/

/-- A cell with attribute `colspan="3"` and no rowspan attribute parses
to spans `(1, 3)`. -/
lemma tdToCell_colspan3 (td : TdNode) (hr : td.rowspanAttr = none)
    (hc : td.colspanAttr = some "3") :
    tdToCell td = some ⟨_remove_whitespace td.text, 1, 3⟩ := by
  have h1 : pySpan td.rowspanAttr = some 1 := by rw [hr]; rfl
  have h3 : pySpan td.colspanAttr = some 3 := by rw [hc]; rfl
  simp [tdToCell, h1, h3]

lemma cellsOfRow_append (l1 l2 : List TdNode) (a b : List Cell)
    (h1 : cellsOfRow l1 = some a) (h2 : cellsOfRow l2 = some b) :
    cellsOfRow (l1 ++ l2) = some (a ++ b) := by
  induction l1 generalizing a with
  | nil =>
    simp [cellsOfRow] at h1
    subst h1
    simpa using h2
  | cons td rest ih =>
    cases htd : tdToCell td with
    | none => simp [cellsOfRow, htd] at h1
    | some c =>
      cases hrest : cellsOfRow rest with
      | none => simp [cellsOfRow, htd, hrest] at h1
      | some cs =>
        simp only [cellsOfRow, htd, hrest] at h1
        obtain rfl : c :: cs = a := by simpa using h1
        simp [cellsOfRow, htd, ih cs hrest]

/-- The single-row C3 scenario at the cell level: a `(rowspan 1,
colspan 3)` cell surrounded by span-free cells occupies exactly the 3
consecutive positions that start at its column index (the number of
cells before it), and nothing is queued. -/
lemma expandRow_colspan3 (pre : List Cell) (t : String) (post : List Cell)
    (hpre : ∀ c ∈ pre, c.rowspan = 1 ∧ c.colspan = 1)
    (hpost : ∀ c ∈ post, c.rowspan = 1 ∧ c.colspan = 1) :
    expandRow (pre ++ ⟨t, 1, 3⟩ :: post) [] =
      (pre.map (fun c => c.text) ++
         t :: t :: t :: post.map (fun c => c.text), []) := by
  have h1 : ¬ (1 : Int) < 1 := by norm_num
  have hstep : cellStep ([], pre.map (fun c => c.text), [], pre.length)
      ⟨t, 1, 3⟩ =
      ([], pre.map (fun c => c.text) ++ [t, t, t], [], pre.length + 3) := by
    simp [cellStep, drainPending, placeCell_nospan t 1 h1]
  simp only [expandRow, List.foldl_append, List.foldl_cons,
    foldl_cellStep_ones pre hpre [] [] 0]
  simp only [List.nil_append, Nat.zero_add, hstep,
    foldl_cellStep_ones post hpost (pre.map (fun c => c.text) ++ [t, t, t])
      [] (pre.length + 3)]
  simp [flushRemainder]

/-- C3: in a single-row input where one cell has `colspan="3"` (all
other spans 1), the resulting dense row is the preceding texts, then
that cell's text three times in consecutive positions (starting at its
column index), then the following texts. -/
theorem colspan_three_single_row (pre : List TdNode) (c : TdNode)
    (post : List TdNode)
    (hr : c.rowspanAttr = none) (hc : c.colspanAttr = some "3")
    (hpre : ∀ td ∈ pre, td.rowspanAttr = none ∧ td.colspanAttr = none)
    (hpost : ∀ td ∈ post, td.rowspanAttr = none ∧ td.colspanAttr = none) :
    expand_colspan_rowspan [⟨pre ++ c :: post⟩] =
      some [pre.map (fun td => _remove_whitespace td.text) ++
              _remove_whitespace c.text :: _remove_whitespace c.text ::
                _remove_whitespace c.text ::
                  post.map fun td => _remove_whitespace td.text] := by
  have hcells : cellsOfRow (pre ++ c :: post) = some
      (pre.map (fun td => (⟨_remove_whitespace td.text, 1, 1⟩ : Cell)) ++
        ⟨_remove_whitespace c.text, 1, 3⟩ ::
          post.map fun td => (⟨_remove_whitespace td.text, 1, 1⟩ : Cell)) := by
    apply cellsOfRow_append _ _ _ _ (cellsOfRow_noattrs pre hpre)
    simp [cellsOfRow, tdToCell_colspan3 c hr hc, cellsOfRow_noattrs post hpost]
  have hrows : rowsOfTrs [⟨pre ++ c :: post⟩] = some
      [pre.map (fun td => (⟨_remove_whitespace td.text, 1, 1⟩ : Cell)) ++
        ⟨_remove_whitespace c.text, 1, 3⟩ ::
          post.map fun td => (⟨_remove_whitespace td.text, 1, 1⟩ : Cell)] := by
    simp [rowsOfTrs, parse_td, hcells]
  rw [expand_colspan_rowspan, hrows, Option.map_some']
  congr 1
  have hones : ∀ (l : List TdNode) (x : Cell),
      x ∈ l.map (fun td => (⟨_remove_whitespace td.text, 1, 1⟩ : Cell)) →
      x.rowspan = 1 ∧ x.colspan = 1 := by
    intro l x hx
    simp only [List.mem_map] at hx
    obtain ⟨td, htd, rfl⟩ := hx
    exact ⟨rfl, rfl⟩
  rw [expandCells]
  simp only [expandRows,
    expandRow_colspan3 _ _ _ (hones pre) (hones post)]
  simp [trailingRows, pendingMeasure, trailingRowsFuel, List.map_map]
  rfl

/-- Witness for C3 at a concrete single-row table. -/
theorem colspan_three_single_row_witness :
    expand_colspan_rowspan
        [⟨[⟨"td", "p", none, none⟩, ⟨"td", "a", none, some "3"⟩,
           ⟨"td", "q", none, none⟩]⟩] =
      some [["p", "a", "a", "a", "q"]] :=
  colspan_three_single_row [⟨"td", "p", none, none⟩]
    ⟨"td", "a", none, some "3"⟩ [⟨"td", "q", none, none⟩] rfl rfl
    (by intro td htd; simp at htd; subst htd; exact ⟨rfl, rfl⟩)
    (by intro td htd; simp at htd; subst htd; exact ⟨rfl, rfl⟩)

/-! ## Claim C8 -/

/-- Every entry of `decPending rem` has remaining row count at least 1:
survivors are kept only when their count exceeds 1 before decrement. -/
lemma decPending_inv (rem : List Pending) : ∀ q ∈ decPending rem, 1 ≤ q.2.2 := by
  intro q hq
  simp only [decPending, List.mem_map, List.mem_filter] at hq
  obtain ⟨p, ⟨hmem, hgt⟩, rfl⟩ := hq
  simp only [decide_eq_true_eq] at hgt
  show 1 ≤ p.2.2 - 1
  omega

/-- The drain loop preserves the invariant on `next_remainder`. -/
lemma drainPending_inv (rem : List Pending) :
    ∀ texts nextRem index, (∀ p ∈ nextRem, 1 ≤ p.2.2) →
    ∀ q ∈ (drainPending rem texts nextRem index).2.2.1, 1 ≤ q.2.2 := by
  induction rem with
  | nil =>
    intro texts nextRem index h q hq
    simp only [drainPending] at hq
    exact h q hq
  | cons p rest ih =>
    intro texts nextRem index h q hq
    by_cases hp : p.1 ≤ index
    · have hnext : ∀ r ∈
          (if 1 < p.2.2 then nextRem ++ [(p.1, p.2.1, p.2.2 - 1)]
           else nextRem), 1 ≤ r.2.2 := by
        intro r hr
        by_cases hgt : 1 < p.2.2
        · simp only [if_pos hgt, List.mem_append, List.mem_singleton] at hr
          rcases hr with hr | hr
          · exact h r hr
          · subst hr; simp; omega
        · rw [if_neg hgt] at hr
          exact h r hr
      simp only [drainPending, if_pos hp] at hq
      exact ih _ _ _ hnext q hq
    · simp only [drainPending, if_neg hp] at hq
      exact h q hq

/-- The placement loop preserves the invariant on `next_remainder`. -/
lemma placeCell_inv (t : String) (r : Int) (n : Nat) :
    ∀ texts nextRem index, (∀ p ∈ nextRem, 1 ≤ p.2.2) →
    ∀ q ∈ (placeCell t r n texts nextRem index).2.1, 1 ≤ q.2.2 := by
  induction n with
  | zero =>
    intro texts nextRem index h q hq
    simp only [placeCell] at hq
    exact h q hq
  | succ m ih =>
    intro texts nextRem index h q hq
    simp only [placeCell] at hq
    refine ih _ _ _ ?_ q hq
    intro p hp
    by_cases hgt : 1 < r
    · simp only [if_pos hgt, List.mem_append, List.mem_singleton] at hp
      rcases hp with hp | hp
      · exact h p hp
      · subst hp; simp; omega
    · rw [if_neg hgt] at hp
      exact h p hp

/-- One cell step preserves the invariant on `next_remainder`. -/
lemma cellStep_inv (st : List Pending × List String × List Pending × Nat)
    (td : Cell) (h : ∀ p ∈ st.2.2.1, 1 ≤ p.2.2) :
    ∀ q ∈ (cellStep st td).2.2.1, 1 ≤ q.2.2 := by
  intro q hq
  simp only [cellStep] at hq
  exact placeCell_inv _ _ _ _ _ _ (drainPending_inv st.1 _ _ _ h) q hq

lemma foldl_cellStep_inv (cells : List Cell) :
    ∀ st : List Pending × List String × List Pending × Nat,
    (∀ p ∈ st.2.2.1, 1 ≤ p.2.2) →
    ∀ q ∈ (cells.foldl cellStep st).2.2.1, 1 ≤ q.2.2 := by
  induction cells with
  | nil => intro st h q hq; simpa using h q hq
  | cons c rest ih =>
    intro st h
    rw [List.foldl_cons]
    exact ih _ (cellStep_inv st c h)

/-- The queue a row hands to the next row satisfies the invariant,
whatever the incoming queue was. -/
lemma expandRow_inv (cells : List Cell) (rem : List Pending) :
    ∀ q ∈ (expandRow cells rem).2, 1 ≤ q.2.2 := by
  intro q hq
  simp only [expandRow] at hq
  rw [flushRemainder_eq] at hq
  simp only [List.mem_append] at hq
  rcases hq with hq | hq
  · exact foldl_cellStep_inv cells (rem, [], [], 0) (by simp) q hq
  · exact decPending_inv _ q hq

lemma rowOutputs_inv (rows : List (List Cell)) :
    ∀ rem, (∀ p ∈ rem, 1 ≤ p.2.2) →
    ∀ q ∈ (rowOutputs rows rem).2, 1 ≤ q.2.2 := by
  induction rows with
  | nil =>
    intro rem h q hq
    simp only [rowOutputs] at hq
    exact h q hq
  | cons r rest ih =>
    intro rem h
    simp only [rowOutputs]
    exact ih _ (expandRow_inv r rem)

/-- C8: a pending span whose remaining row count would reach 0 is never
re-queued, so every entry of the queue at the start of any row — i.e.
after any number `k` of processed input rows — has remaining count at
least 1; the trailing-row loop's flush preserves the same bound. -/
theorem pending_rowspan_invariant (rows : List (List Cell)) (k : Nat) :
    (∀ p ∈ (rowOutputs (rows.take k) []).2, 1 ≤ p.2.2) ∧
    ∀ rem : List Pending, ∀ p ∈ (flushRemainder rem [] []).2, 1 ≤ p.2.2 := by
  constructor
  · exact rowOutputs_inv _ [] (by simp)
  · intro rem p hp
    rw [flushRemainder_eq] at hp
    simp only [List.nil_append] at hp
    exact decPending_inv rem p hp

/-- Witness for C8: after one row whose cell has rowspan 2, the queue
holds `(0, "a", 1)`, which satisfies the bound. -/
theorem pending_rowspan_invariant_witness :
    (0, "a", (1 : Int)) ∈ (rowOutputs ([[⟨"a", 2, 1⟩]].take 1) []).2 ∧
    1 ≤ ((0, "a", (1 : Int)) : Pending).2.2 :=
  ⟨by decide,
   (pending_rowspan_invariant [[⟨"a", 2, 1⟩]] 1).1 (0, "a", 1) (by decide)⟩

/-! ## Claim C5 -/

/-- Counterexample to C5 as stated: with `row_limit=2` on a five-row
body whose first row has a `rowspan="3"` cell, the trailing-row loop
synthesizes a third body row from the pending span that crosses the
limit boundary, so 3 body rows are produced, not exactly 2. -/
theorem row_limit_counterexample :
    (processTable
        ⟨[⟨[⟨"th", "H", none, none⟩]⟩],
         [⟨[⟨"td", "A", some "3", none⟩]⟩, ⟨[⟨"td", "B", none, none⟩]⟩,
          ⟨[⟨"td", "B", none, none⟩]⟩, ⟨[⟨"td", "B", none, none⟩]⟩,
          ⟨[⟨"td", "B", none, none⟩]⟩], [], []⟩
        true none (some 2)).map (fun tbl => tbl.rows) =
      Except.ok [["A"], ["A", "B"], ["A"]] ∧
    ([["A"], ["A", "B"], ["A"]] : List (List String)).length ≠ 2 :=
  ⟨rfl, by decide⟩

/-- The cell loop on a row whose cells all have `rowspan <= 1`,
starting from an empty queue: no pending entry is ever created. -/
lemma foldl_cellStep_nospan (cells : List Cell)
    (h : ∀ c ∈ cells, c.rowspan ≤ 1) :
    ∀ texts index, ∃ texts2 index2,
      cells.foldl cellStep ([], texts, [], index) =
        ([], texts2, [], index2) := by
  induction cells with
  | nil => intro texts index; exact ⟨texts, index, by simp⟩
  | cons c rest ih =>
    intro texts index
    have hc : ¬ 1 < c.rowspan := by have := h c (by simp); omega
    have hstep : cellStep ([], texts, [], index) c =
        ([], texts ++ List.replicate c.colspan.toNat c.text, [],
          index + c.colspan.toNat) := by
      simp [cellStep, drainPending, placeCell_nospan c.text c.rowspan hc]
    rw [List.foldl_cons, hstep]
    exact ih (fun x hx => h x (List.mem_cons_of_mem _ hx)) _ _

/-- A row whose cells all have `rowspan <= 1` hands an empty queue to
the next row (when its own incoming queue is empty). -/
lemma expandRow_nospan (cells : List Cell)
    (h : ∀ c ∈ cells, c.rowspan ≤ 1) :
    (expandRow cells []).2 = [] := by
  obtain ⟨texts2, index2, hfold⟩ := foldl_cellStep_nospan cells h [] 0
  simp [expandRow, hfold, flushRemainder]

/-- With no rowspan exceeding 1 anywhere, the engine emits exactly one
dense row per input row and no trailing rows. -/
lemma expandRows_nospan_length (rows : List (List Cell))
    (h : ∀ row ∈ rows, ∀ c ∈ row, c.rowspan ≤ 1) :
    (expandRows rows []).length = rows.length := by
  induction rows with
  | nil => simp [expandRows, trailingRows, pendingMeasure, trailingRowsFuel]
  | cons r rest ih =>
    have h2 := expandRow_nospan r (fun c hc => h r (by simp) c hc)
    simp [expandRows, h2,
      ih (fun row hrow => h row (List.mem_cons_of_mem _ hrow))]

lemma cellsOfRow_of_forall (tds : List TdNode)
    (h : ∀ td ∈ tds, ∃ c, tdToCell td = some c ∧ c.rowspan ≤ 1) :
    ∃ cs, cellsOfRow tds = some cs ∧ ∀ c ∈ cs, c.rowspan ≤ 1 := by
  induction tds with
  | nil => exact ⟨[], by simp [cellsOfRow], by simp⟩
  | cons td rest ih =>
    obtain ⟨c, hc, hcr⟩ := h td (by simp)
    obtain ⟨cs, hcs, hcsr⟩ := ih (fun x hx => h x (List.mem_cons_of_mem _ hx))
    refine ⟨c :: cs, by simp [cellsOfRow, hc, hcs], ?_⟩
    intro x hx
    rcases List.mem_cons.mp hx with rfl | hx
    · exact hcr
    · exact hcsr x hx

lemma rowsOfTrs_of_forall (trs : List TrNode)
    (h : ∀ tr ∈ trs, ∀ td ∈ tr.cells,
        ∃ c, tdToCell td = some c ∧ c.rowspan ≤ 1) :
    ∃ rows, rowsOfTrs trs = some rows ∧ rows.length = trs.length ∧
      ∀ row ∈ rows, ∀ c ∈ row, c.rowspan ≤ 1 := by
  induction trs with
  | nil => exact ⟨[], by simp [rowsOfTrs], by simp, by simp⟩
  | cons tr rest ih =>
    obtain ⟨cs, hcs, hcsr⟩ := cellsOfRow_of_forall tr.cells (h tr (by simp))
    obtain ⟨rows, hrows, hlen, hrsp⟩ :=
      ih (fun x hx => h x (List.mem_cons_of_mem _ hx))
    refine ⟨cs :: rows, by simp [rowsOfTrs, parse_td, hcs, hrows],
      by simp [hlen], ?_⟩
    intro row hrow
    rcases List.mem_cons.mp hrow with rfl | hrow
    · exact hcsr
    · exact hrsp row hrow

/-- Whenever `processTable` succeeds, the rows of the produced table are
exactly the expansion of the classified, row-limited body group. -/
lemma processTable_ok_rows (t : TableNode) (header : Bool)
    (cn : Option (List String)) (rl : Option Nat) (tbl : AgateTable)
    (hok : processTable t header cn rl = Except.ok tbl) :
    expand_colspan_rowspan
        (classifyRows (parse_thead_tr t) (limitedBodyRows t rl)).2 =
      some tbl.rows := by
  unfold processTable at hok
  dsimp only at hok
  split at hok
  · split at hok
    · cases hok
      assumption
    · cases hok
  · cases hok

/-- C5 (amended): the row limit is applied to the raw body row count
before span expansion; with `row_limit=2` on a five-row body, exactly 2
body dense rows are produced provided the retained 2 rows contain no
cell with rowspan exceeding 1 — a rowspan continuation crossing the
limit boundary instead adds synthesized trailing rows (see the
counterexample). -/
theorem row_limit_amended (t : TableNode) (header : Bool)
    (cn : Option (List String)) (tbl : AgateTable)
    (hhead : (parse_thead_tr t).isEmpty = false)
    (hlen : (parse_tbody_tr t).length = 5)
    (hspan : ∀ tr ∈ (parse_tbody_tr t).take 2, ∀ td ∈ tr.cells,
        ∃ c, tdToCell td = some c ∧ c.rowspan ≤ 1)
    (hok : processTable t header cn (some 2) = Except.ok tbl) :
    tbl.rows.length = 2 ∧
    limitedBodyRows t (some 2) = (parse_tbody_tr t).take 2 := by
  refine ⟨?_, rfl⟩
  have hbody := processTable_ok_rows t header cn (some 2) tbl hok
  have hcls : (classifyRows (parse_thead_tr t)
      (limitedBodyRows t (some 2))).2 = (parse_tbody_tr t).take 2 := by
    simp [classifyRows, hhead, limitedBodyRows]
  rw [hcls] at hbody
  obtain ⟨rows, hrows, hrlen, hrspan⟩ := rowsOfTrs_of_forall _ hspan
  rw [expand_colspan_rowspan, hrows, Option.map_some'] at hbody
  have hexp : expandCells rows = tbl.rows := Option.some.inj hbody
  rw [← hexp, expandCells, expandRows_nospan_length rows hrspan, hrlen]
  simp [List.length_take, hlen]

/-- Witness for C5 (amended) at a concrete five-row, span-free body. -/
theorem row_limit_amended_witness :
    ({ column_names := ["H"], rows := [["B"], ["B"]] } : AgateTable).rows.length
        = 2 ∧
    limitedBodyRows
        ⟨[⟨[⟨"th", "H", none, none⟩]⟩],
         [⟨[⟨"td", "B", none, none⟩]⟩, ⟨[⟨"td", "B", none, none⟩]⟩,
          ⟨[⟨"td", "B", none, none⟩]⟩, ⟨[⟨"td", "B", none, none⟩]⟩,
          ⟨[⟨"td", "B", none, none⟩]⟩], [], []⟩ (some 2) =
      (parse_tbody_tr
        ⟨[⟨[⟨"th", "H", none, none⟩]⟩],
         [⟨[⟨"td", "B", none, none⟩]⟩, ⟨[⟨"td", "B", none, none⟩]⟩,
          ⟨[⟨"td", "B", none, none⟩]⟩, ⟨[⟨"td", "B", none, none⟩]⟩,
          ⟨[⟨"td", "B", none, none⟩]⟩], [], []⟩).take 2 :=
  row_limit_amended
    ⟨[⟨[⟨"th", "H", none, none⟩]⟩],
     [⟨[⟨"td", "B", none, none⟩]⟩, ⟨[⟨"td", "B", none, none⟩]⟩,
      ⟨[⟨"td", "B", none, none⟩]⟩, ⟨[⟨"td", "B", none, none⟩]⟩,
      ⟨[⟨"td", "B", none, none⟩]⟩], [], []⟩
    true none ⟨["H"], [["B"], ["B"]]⟩ rfl rfl
    (by intro tr htr td htd
        simp [parse_tbody_tr] at htr
        subst htr
        simp at htd
        subst htd
        exact ⟨⟨_remove_whitespace "B", 1, 1⟩, rfl, le_refl 1⟩)
    rfl

/-! ## Claim C6 -/

/-- Counterexample to C6 as stated: the attribute string `"0"` parses to
colspan 0 and the cell then occupies zero grid positions instead of
being treated as 1; moreover a non-numeric attribute makes `int` raise
(`pySpan = none`) rather than defaulting to 1. -/
theorem span_attr_counterexample :
    pySpan (some "0") = some 0 ∧
    expand_colspan_rowspan [⟨[⟨"td", "x", none, some "0"⟩]⟩] = some [[]] ∧
    expand_colspan_rowspan [⟨[⟨"td", "x", none, none⟩]⟩] = some [["x"]] ∧
    (some [[]] : Option (List (List String))) ≠ some [["x"]] ∧
    pySpan (some "zz") = none :=
  ⟨rfl, rfl, rfl, by decide, rfl⟩

/-- C6 (amended): the spans used by the expansion are `int(attr or 1)` —
`1` when the attribute is absent or the empty string, otherwise the
attribute parsed as an integer, with a non-empty unparseable value
raising an error rather than defaulting to 1 (third conjunct reduces the
attribute case to `pyInt`); values of 0 or negative are not clamped to
1: a nonpositive colspan makes the cell occupy zero positions, while a
rowspan of 0 (or any value `<= 1`) merely queues nothing and so behaves
like 1. -/
theorem span_attr_defaults (s : String) (hs : s ≠ "") (t : String)
    (r c : Int) (hc : c ≤ 0) (hr : r ≤ 1) :
    pySpan none = some 1 ∧
    pySpan (some "") = some 1 ∧
    pySpan (some s) = pyInt s ∧
    expandCells [[⟨t, r, c⟩]] = [[]] ∧
    expandCells [[⟨t, 0, 1⟩]] = expandCells [[⟨t, 1, 1⟩]] := by
  refine ⟨rfl, rfl, by simp [pySpan, hs], ?_, ?_⟩
  · have hcn : c.toNat = 0 := by omega
    have hnr : ¬ 1 < r := by omega
    have hstep : cellStep ([], [], [], 0) ⟨t, r, c⟩ = ([], [], [], 0) := by
      simp [cellStep, drainPending, hcn, placeCell_nospan t r hnr]
    simp [expandCells, expandRows, expandRow, hstep, flushRemainder,
      trailingRows, pendingMeasure, trailingRowsFuel]
  · have h0 : ¬ (1 : Int) < 0 := by norm_num
    have h1 : ¬ (1 : Int) < 1 := by norm_num
    have hstep0 : cellStep ([], [], [], 0) ⟨t, 0, 1⟩ = ([], [t], [], 1) := by
      simp [cellStep, drainPending, placeCell_nospan t 0 h0]
    have hstep1 : cellStep ([], [], [], 0) ⟨t, 1, 1⟩ = ([], [t], [], 1) := by
      simp [cellStep, drainPending, placeCell_nospan t 1 h1]
    simp [expandCells, expandRows, expandRow, hstep0, hstep1]

/-- Witness for C6 (amended) at `s = "2"`, `t = "x"`, `r = c = 0`. -/
theorem span_attr_defaults_witness :
    pySpan none = some 1 ∧
    pySpan (some "") = some 1 ∧
    pySpan (some "2") = pyInt "2" ∧
    expandCells [[⟨"x", 0, 0⟩]] = [[]] ∧
    expandCells [[⟨"x", 0, 1⟩]] = expandCells [[⟨"x", 1, 1⟩]] :=
  span_attr_defaults "2" (by decide) "x" 0 0 (by decide) (by decide)

end AgateXml
